import Mathlib

/-!
Verification of the VRP solver core: shallow embedding of the decomposition
mutation (decompose_search.rs), route metrics (metrics.rs), the evolution
simulator entry points (evolution/mod.rs) and the pragmatic constraint
pipeline construction (reader.rs), together with theorems settling the
specified properties.

Numeric convention: the 64-bit float distances and costs of the source are
modelled as rationals; negative distance marks an unreachable pair, exactly
as in the source.
-/

namespace VRP

open List

/-- A travel distance or cost (f64 in the source, modelled as a rational). -/
abbrev Distance := ℚ

/-- A location index (usize in the source). -/
abbrev Location := Nat

/-- A routing profile (i32 in the source; only non-negative values occur). -/
abbrev Profile := Nat

/-- A job handle; the mutation treats jobs as opaque shared identifiers. -/
abbrev Job := Nat

/-- Transport cost oracle. The departure-time argument of the source is always
Default::default() at every call site modelled here, so it is omitted. -/
structure Transport where
  distance : Profile → Location → Location → Distance

/-- One tour activity: its place location and the job it serves (none for a
departure or arrival activity that serves no job). -/
structure Activity where
  location : Location
  job : Option Job
deriving DecidableEq

/-- An actor: (driver, vehicle, shift); we keep its identity and the vehicle
profile, the only fields the modelled code reads. -/
structure Actor where
  id : Nat
  profile : Profile
deriving DecidableEq

/-- An ordered sequence of activities operated by one actor. -/
structure Tour where
  activities : List Activity
deriving DecidableEq

/-- Tour::jobs - the jobs served by the activities of the tour. -/
def Tour.jobs (t : Tour) : List Job :=
  t.activities.filterMap (·.job)

/-- One vehicle tour with its immutable actor (RouteContext; the derived state
maps are not modelled because no settled claim reads them). -/
structure RouteContext where
  actor : Actor
  tour : Tour
deriving DecidableEq

/-- Modelled from the spec: compare_floats lives in the utils crate, whose
source is not part of this repository; the spec requires a deterministic total
order on costs with NaN ordered last. NaN is absent from the rational model,
so this is the standard comparison on rationals. -/
def compare_floats (a b : Distance) : Ordering :=
  if a < b then .lt else if b < a then .gt else .eq

/-- Rust Iterator::min_by: fold that keeps the current minimum; on ties the
earlier element is kept, so the first minimal element is returned. -/
def minByCmp (cmp : α → α → Ordering) : List α → Option α
  | [] => none
  | x :: xs => some (xs.foldl (fun acc y => if cmp y acc = .lt then y else acc) x)

/-- construction/heuristics/metrics.rs, get_medoid: the activity location of
the route whose sum of distances (under the vehicle profile of the route) to
all activity locations is minimal. -/
def get_medoid (route_ctx : RouteContext) (transport : Transport) : Option Location :=
  let locations := route_ctx.tour.activities.map (·.location)
  (minByCmp (fun a b => compare_floats a.1 b.1)
    (locations.map (fun outer =>
      ((locations.map (fun inner =>
        transport.distance route_ctx.actor.profile outer inner)).sum, outer)))).map (·.2)

/-- The raw (unclamped) sum of distances from loc to every activity location
of the route, exactly the quantity get_medoid minimizes. -/
def medoidRawSum (route_ctx : RouteContext) (transport : Transport) (loc : Location) : Distance :=
  ((route_ctx.tour.activities.map (·.location)).map
    (fun inner => transport.distance route_ctx.actor.profile loc inner)).sum

/-- Spec-side definition for claim C1 (refinement comparison only): the sum of
distances from loc to all activity locations with negative (unreachable)
distances clamped to 0, following the spec wording. -/
def medoidClampedSum (route_ctx : RouteContext) (transport : Transport) (loc : Location) : Distance :=
  ((route_ctx.tour.activities.map (·.location)).map
    (fun inner => max 0 (transport.distance route_ctx.actor.profile loc inner))).sum

theorem compare_floats_eq_lt {a b : Distance} : compare_floats a b = .lt ↔ a < b := by
  unfold compare_floats
  by_cases h : a < b
  · simp [h]
  · by_cases h2 : b < a <;> simp [h, h2]

theorem foldl_min_mem (f : α → Distance) (xs : List α) (x : α) :
    xs.foldl (fun acc y => if compare_floats (f y) (f acc) = .lt then y else acc) x ∈ x :: xs := by
  induction xs generalizing x with
  | nil => simp
  | cons y ys ih =>
    simp only [List.foldl_cons]
    by_cases hc : compare_floats (f y) (f x) = .lt
    · rw [if_pos hc]
      exact List.mem_cons_of_mem x (ih y)
    · rw [if_neg hc]
      rcases List.mem_cons.mp (ih x) with h | h
      · rw [h]
        exact List.mem_cons_self _ _
      · exact List.mem_cons_of_mem x (List.mem_cons_of_mem y h)

theorem foldl_min_le (f : α → Distance) (xs : List α) :
    ∀ x, ∀ y ∈ x :: xs,
      f (xs.foldl (fun acc y => if compare_floats (f y) (f acc) = .lt then y else acc) x) ≤ f y := by
  induction xs with
  | nil =>
    intro x y hy
    rcases List.mem_cons.mp hy with h | h
    · subst h
      simp
    · simp at h
  | cons z zs ih =>
    intro x y hy
    simp only [List.foldl_cons]
    by_cases hc : compare_floats (f z) (f x) = .lt
    · rw [if_pos hc]
      have hlt : f z < f x := compare_floats_eq_lt.mp hc
      rcases List.mem_cons.mp hy with h | h
      · rw [h]
        exact le_trans (ih z z (List.mem_cons_self _ _)) (le_of_lt hlt)
      · rcases List.mem_cons.mp h with h2 | h2
        · rw [h2]
          exact ih z z (List.mem_cons_self _ _)
        · exact ih z y (List.mem_cons_of_mem z h2)
    · rw [if_neg hc]
      have hge : f x ≤ f z := by
        rcases lt_trichotomy (f z) (f x) with h | h | h
        · exact absurd (compare_floats_eq_lt.mpr h) hc
        · exact le_of_eq h.symm
        · exact le_of_lt h
      rcases List.mem_cons.mp hy with h | h
      · rw [h]
        exact ih x x (List.mem_cons_self _ _)
      · rcases List.mem_cons.mp h with h2 | h2
        · rw [h2]
          exact le_trans (ih x x (List.mem_cons_self _ _)) hge
        · exact ih x y (List.mem_cons_of_mem x h2)

theorem minByCmp_fst_spec (f : α → Distance) (l : List α) :
    (l = [] → minByCmp (fun a b => compare_floats (f a) (f b)) l = none) ∧
    (l ≠ [] → ∃ r, minByCmp (fun a b => compare_floats (f a) (f b)) l = some r ∧
      r ∈ l ∧ ∀ y ∈ l, f r ≤ f y) := by
  constructor
  · intro h; subst h; rfl
  · intro h
    match l with
    | [] => exact absurd rfl h
    | x :: xs =>
      refine ⟨xs.foldl (fun acc y => if compare_floats (f y) (f acc) = .lt then y else acc) x,
        rfl, foldl_min_mem f xs x, foldl_min_le f xs x⟩

theorem get_medoid_eq_minByCmp (rc : RouteContext) (t : Transport) :
    get_medoid rc t =
      (minByCmp (fun a b => compare_floats a.1 b.1)
        ((rc.tour.activities.map (·.location)).map
          (fun outer => (medoidRawSum rc t outer, outer)))).map (·.2) := by
  unfold get_medoid medoidRawSum
  rfl

/-- Claim C1 (amended): get_medoid returns some location of the route
minimizing the raw, unclamped, sum of distances (negative unreachable
distances participate as-is) to all activity locations; it is absent exactly
when the route has no activities, never because of unreachability. -/
theorem get_medoid_minimizes_raw_sum (rc : RouteContext) (t : Transport) :
    (rc.tour.activities = [] → get_medoid rc t = none) ∧
    (rc.tour.activities ≠ [] → ∃ loc, get_medoid rc t = some loc ∧
      loc ∈ rc.tour.activities.map (·.location) ∧
      ∀ l2 ∈ rc.tour.activities.map (·.location), medoidRawSum rc t loc ≤ medoidRawSum rc t l2) := by
  have hspec := minByCmp_fst_spec (f := fun p : Distance × Location => p.1)
    ((rc.tour.activities.map (·.location)).map (fun outer => (medoidRawSum rc t outer, outer)))
  constructor
  · intro h
    rw [get_medoid_eq_minByCmp, hspec.1 (by simp [h])]
    rfl
  · intro h
    have hne : (rc.tour.activities.map (·.location)).map
        (fun outer => (medoidRawSum rc t outer, outer)) ≠ [] := by
      simp [h]
    obtain ⟨r, hmin, hmem, hle⟩ := hspec.2 hne
    obtain ⟨loc, hloc, hr⟩ := List.mem_map.mp hmem
    refine ⟨r.2, ?_, ?_, ?_⟩
    · rw [get_medoid_eq_minByCmp, hmin]
      rfl
    · rw [← hr]
      exact hloc
    · intro l2 hl2
      have h2 := hle (medoidRawSum rc t l2, l2) (List.mem_map.mpr ⟨l2, hl2, rfl⟩)
      have hfst : r.1 = medoidRawSum rc t r.2 := by rw [← hr]
      rw [← hr] at h2 ⊢
      exact h2

/-- Witness for the amended claim C1 at a concrete input: a route with a
single activity at location 7 under a zero-distance oracle has medoid 7. -/
theorem get_medoid_minimizes_raw_sum_witness :
    ∃ loc, get_medoid ⟨⟨0, 0⟩, ⟨[⟨7, none⟩]⟩⟩ ⟨fun _ _ _ => 0⟩ = some loc ∧
      loc ∈ (Tour.mk [⟨7, none⟩]).activities.map (·.location) ∧
      ∀ l2 ∈ (Tour.mk [⟨7, none⟩]).activities.map (·.location),
        medoidRawSum ⟨⟨0, 0⟩, ⟨[⟨7, none⟩]⟩⟩ ⟨fun _ _ _ => 0⟩ loc ≤
        medoidRawSum ⟨⟨0, 0⟩, ⟨[⟨7, none⟩]⟩⟩ ⟨fun _ _ _ => 0⟩ l2 :=
  (get_medoid_minimizes_raw_sum ⟨⟨0, 0⟩, ⟨[⟨7, none⟩]⟩⟩ ⟨fun _ _ _ => 0⟩).2 (by decide)

/-- Concrete transport oracle refuting claim C1 as stated. -/
def cexTransport : Transport :=
  ⟨fun _ x y =>
    if x = y then 0
    else if x = 0 ∧ y = 1 then -10
    else if x = 0 ∧ y = 2 then 6
    else if x = 1 ∧ y = 0 then 5
    else if x = 1 ∧ y = 2 then 0
    else 100⟩

/-- Concrete route refuting claim C1 as stated. -/
def cexRoute : RouteContext :=
  ⟨⟨0, 0⟩, ⟨[⟨0, none⟩, ⟨1, some 1⟩, ⟨2, some 2⟩]⟩⟩

/-- Counterexample to claim C1 as stated: get_medoid does not clamp negative
distances to 0. On this route it returns location 0 (raw sums: -4, 5, 200)
although under the clamped sums of the claim location 1 is the unique
minimizer (clamped sums: 6, 5, 200), so the returned location does not
minimize the clamped sum. -/
theorem get_medoid_claim_false :
    get_medoid cexRoute cexTransport = some 0 ∧
    1 ∈ cexRoute.tour.activities.map (·.location) ∧
    medoidClampedSum cexRoute cexTransport 1 < medoidClampedSum cexRoute cexTransport 0 := by
  refine ⟨?_, ?_, ?_⟩
  · norm_num [get_medoid, cexRoute, cexTransport, minByCmp, compare_floats]
    decide
  · decide
  · norm_num [medoidClampedSum, cexRoute, cexTransport]

/-- Modelled from the spec: the Registry bookkeeping structure is not part of
the sources; per the spec it records which actors are in use and supports
deep_slice by an actor predicate and use_route. -/
structure Registry where
  available : List Actor
  used : List Actor
deriving DecidableEq

/-- Registry::new from a fleet: every actor free, none used. -/
def Registry.new (fleet : List Actor) : Registry :=
  ⟨fleet, []⟩

/-- registry.deep_slice: clone retaining only actors satisfying the predicate. -/
def Registry.deep_slice (r : Registry) (p : Actor → Bool) : Registry :=
  ⟨r.available.filter p, r.used.filter p⟩

/-- registry.use_route: mark the actor of the route as in use. -/
def Registry.use_route (r : Registry) (rc : RouteContext) : Registry :=
  ⟨r.available.filter (fun a => a ≠ rc.actor), rc.actor :: r.used⟩

/-- registry.deep_copy: the model is pure data, so a deep copy is the value. -/
def Registry.deep_copy (r : Registry) : Registry := r

/-- route_ctx.deep_copy: the model is pure data, so a deep copy is the value. -/
def RouteContext.deep_copy (rc : RouteContext) : RouteContext := rc

/--
The problem aggregate as consumed by the modelled code: the transport oracle,
the fleet actors and the objective. objectiveCost is modelled from the spec
(objective.estimate_cost); it reads only the solution.
-/
structure Problem where
  transport : Transport
  fleet : List Actor
  objectiveCost : List RouteContext → Distance

/-- SolutionContext of a candidate solution; unassigned maps a job to its
failure code. The derived key-value state bag is not modelled because the
claims under verification never read it. -/
structure SolutionContext where
  required : List Job
  ignored : List Job
  unassigned : List (Job × Int)
  locked : List Job
  routes : List RouteContext
  registry : Registry

/-- An Individual (InsertionContext): a candidate solution with its problem
handle and per-individual randomness seed. -/
structure Individual where
  problem : Problem
  solution : SolutionContext
  random : Nat

/-- Modelled from the spec: Individual::new (InsertionContext::new) is not in
the sources; per the spec the merge step seeds an empty individual (problem
plus seed randomness): no routes, no jobs, registry with every actor free. -/
def Individual.new (p : Problem) (random : Nat) : Individual :=
  ⟨p, ⟨[], [], [], [], [], Registry.new p.fleet⟩, random⟩

/-- Modelled from the spec: constraint.accept_solution_state recomputes only
the derived route and solution state maps, which this model does not carry;
on the modelled fields it is the identity. -/
def acceptSolutionState (_p : Problem) (s : SolutionContext) : SolutionContext := s

/-- Stable insertion of x into l: x passes every element it does not compare
.lt against, hence lands after elements equal to it. -/
def insertBy (cmp : α → α → Ordering) (x : α) : List α → List α
  | [] => [x]
  | y :: ys =>
    match cmp x y with
    | .lt => x :: y :: ys
    | _ => y :: insertBy cmp x ys

/-- Rust slice sort_by modelled as a stable insertion sort driven by cmp. -/
def sortByCmp (cmp : α → α → Ordering) (l : List α) : List α :=
  l.foldl (fun acc x => insertBy cmp x acc) []

/-- decompose_search.rs, the comparator passed to route_distances.sort_by:
both present compares the distances, a present distance sorts before an
absent one, and every other combination (including both absent) yields .gt. -/
def routeDistanceCmp (a b : Nat × Option Distance) : Ordering :=
  match a.2, b.2 with
  | some ad, some bd => compare_floats ad bd
  | some _, none => .lt
  | _, _ => .gt

/-- decompose_search.rs, the per-pair distance of create_multiple_individuals:
medoid-to-medoid distance under the given profile, absent when either medoid
is absent or the distance is negative (unreachable). -/
def medoidPairDistance (transport : Transport) (profile : Profile) :
    Option Location → Option Location → Option Distance
  | some om, some im =>
    let d := transport.distance profile om im
    if d < 0 then none else some d
  | _, _ => none

/-- decompose_search.rs, indexed_medoids of create_multiple_individuals. -/
def indexedMedoids (ind : Individual) : List (Nat × Option Location) :=
  (ind.solution.routes.enum).map (fun p => (p.1, get_medoid p.2 ind.problem.transport))

/-- decompose_search.rs: the unsorted pairwise distance list of one route:
every other indexed medoid paired with its distance to the outer medoid. -/
def unsortedDistances (ind : Individual) (profile : Profile) (idx : Nat) (med : Option Location) :
    List (Nat × Option Distance) :=
  ((indexedMedoids ind).filter (fun inner => inner.1 ≠ idx)).map
    (fun inner => (inner.1, medoidPairDistance ind.problem.transport profile med inner.2))

/-- decompose_search.rs, route_groups_distances of create_multiple_individuals,
parameterized by the profile used for every pairwise distance. -/
def routeGroupsDistancesWith (ind : Individual) (profile : Profile) :
    List (List (Nat × Option Distance)) :=
  (indexedMedoids ind).map (fun outer =>
    sortByCmp routeDistanceCmp (unsortedDistances ind profile outer.1 outer.2))

/-- decompose_search.rs, the greedy grouping loop of create_multiple_individuals:
iterate the per-route sorted distance lists in index order; for each index not
yet used, group it with the closest up to MAX_ROUTES_PER_INDIVIDUAL - 1 = 2
not-yet-used indices and mark the whole group used. The group of index i: the
closest up to MAX_ROUTES_PER_INDIVIDUAL - 1 = 2 indices of the sorted list ds
not yet used, chained with i itself. -/
def groupOf (ds : List (Nat × Option Distance)) (used : List Nat) (i : Nat) : List Nat :=
  ((ds.filter (fun q => q.1 ∉ used)).take 2).map (·.1) ++ [i]

/-- decompose_search.rs: the route-group identification fold over the
enumerated sorted distance lists with its used-indices accumulator, AS
COMPILED WITH DEBUG ASSERTIONS ON: the only insertion into used_indices in
the source is the argument of the debug_assert! over the group members, so
the marking executes exactly in builds with debug_assertions enabled (tests,
debug). The release-build semantics, where the insertion is compiled out, is
groupsGoRelease below. -/
def groupsGo : List (Nat × List (Nat × Option Distance)) → List Nat → List (List Nat)
  | [], _ => []
  | (i, ds) :: rest, used =>
    if i ∈ used then groupsGo rest used
    else groupOf ds used i :: groupsGo rest (used ++ groupOf ds used i)

/-- decompose_search.rs: the same grouping fold as compiled WITHOUT debug
assertions (release): debug_assert! does not evaluate its argument, so the
used-indices set is never written; the membership tests still run but the
accumulator stays as it started. -/
def groupsGoRelease : List (Nat × List (Nat × Option Distance)) → List Nat → List (List Nat)
  | [], _ => []
  | (i, ds) :: rest, used =>
    if i ∈ used then groupsGoRelease rest used
    else groupOf ds used i :: groupsGoRelease rest used

/-- decompose_search.rs: the medoid distance lists and route groups of
create_multiple_individuals; absent exactly when the individual has no routes
(the profile of the first route seeds every pairwise distance). Debug-build
grouping semantics; routeGroupsRelease is the release-build counterpart. -/
def routeGroups (ind : Individual) : Option (List (List Nat)) :=
  (ind.solution.routes.head?).map (fun r0 =>
    groupsGo ((routeGroupsDistancesWith ind r0.actor.profile).enum) [])

/-- The route groups of create_multiple_individuals as compiled in release,
where the used-indices marking inside debug_assert! is compiled out. -/
def routeGroupsRelease (ind : Individual) : Option (List (List Nat)) :=
  (ind.solution.routes.head?).map (fun r0 =>
    groupsGoRelease ((routeGroupsDistancesWith ind r0.actor.profile).enum) [])

/-- decompose_search.rs, create_partial_individual: deep-copied routes of the
group, registry sliced to their actors, locked restricted to present jobs,
everything else empty. The source iterates the group as a HashSet; the group
list of the model has no duplicates, so the list order stands in for the
(unspecified) set iteration order. -/
def createPartialIndividual (ind : Individual) (routeIndices : List Nat) : Individual :=
  let routes := routeIndices.filterMap
    (fun idx => (ind.solution.routes.get? idx).map RouteContext.deep_copy)
  let actors := routes.map (·.actor)
  let registry := ind.solution.registry.deep_slice (fun a => a ∈ actors)
  let jobs := routes.flatMap (fun rc => rc.tour.jobs)
  let locked := ind.solution.locked.filter (fun j => j ∈ jobs)
  { problem := ind.problem
    solution :=
      { required := []
        ignored := []
        unassigned := []
        locked := locked
        routes := routes
        registry := registry }
    random := ind.random }

/-- decompose_search.rs, create_empty_individuals: one extra individual with
no routes carrying required, ignored, unassigned and locked forward over a
deep-copied registry, present only when required or unassigned is non-empty. -/
def createEmptyIndividuals (ind : Individual) : List Individual :=
  if ind.solution.required.isEmpty && ind.solution.unassigned.isEmpty then []
  else
    [{ problem := ind.problem
       solution :=
         { required := ind.solution.required
           ignored := ind.solution.ignored
           unassigned := ind.solution.unassigned
           locked := ind.solution.locked
           routes := []
           registry := ind.solution.registry.deep_copy }
       random := ind.random }]

/-- decompose_search.rs, create_multiple_individuals (debug-build grouping
semantics; the release counterpart is createMultipleIndividualsRelease). -/
def createMultipleIndividuals (ind : Individual) : Option (List Individual) :=
  (routeGroups ind).map (fun groups =>
    groups.map (createPartialIndividual ind) ++ createEmptyIndividuals ind)

/-- create_multiple_individuals as compiled in release, where the grouping
never marks indices used. -/
def createMultipleIndividualsRelease (ind : Individual) : Option (List Individual) :=
  (routeGroupsRelease ind).map (fun groups =>
    groups.map (createPartialIndividual ind) ++ createEmptyIndividuals ind)

/-- A refinement context: the problem, the ranked population (best first; a
Greedy partition population is the singleton list) and the quota flag
(some b models a quota handle whose is_reached returns b). Statistics and the
state bag are omitted: the modelled code never reads them. -/
structure RefinementContext where
  problem : Problem
  population : List Individual
  quota : Option Bool

/-- A mutation operator: mutate_one as a function of the refinement context
and the individual. -/
abbrev Mutation := RefinementContext → Individual → Individual

/-- decompose_search.rs, decompose_individual: wrap every partial individual
in a fresh context over a Greedy population; keep the result only when more
than one context was produced. -/
def decomposeIndividual (ctx : RefinementContext) (ind : Individual) :
    Option (List RefinementContext) :=
  ((createMultipleIndividuals ind).map (fun inds =>
    inds.map (fun i => RefinementContext.mk ctx.problem [i] ctx.quota))).bind
    (fun ctxs => if ctxs.length > 1 then some ctxs else none)

/-- decompose_individual as compiled in release, over the release grouping. -/
def decomposeIndividualRelease (ctx : RefinementContext) (ind : Individual) :
    Option (List RefinementContext) :=
  ((createMultipleIndividualsRelease ind).map (fun inds =>
    inds.map (fun i => RefinementContext.mk ctx.problem [i] ctx.quota))).bind
    (fun ctxs => if ctxs.length > 1 then some ctxs else none)

/-- Modelled from the spec: the Greedy population holds the single best
individual; add keeps the candidate only when its objective cost is strictly
better than the incumbent. -/
def greedyAdd (p : Problem) (pop : List Individual) (x : Individual) : List Individual :=
  match pop with
  | [] => [x]
  | best :: _ =>
    if compare_floats (p.objectiveCost x.solution.routes)
        (p.objectiveCost best.solution.routes) = .lt then [x] else [best]

/-- decompose_search.rs, the per-partition refinement loop of
refine_decomposed: repeat_count times select the best, mutate it with the
inner mutation and add the result back to the Greedy population. -/
def refineLoop (inner : Mutation) (dctx : RefinementContext) : Nat → RefinementContext
  | 0 => dctx
  | k + 1 =>
    let prev := refineLoop inner dctx k
    match prev.population.head? with
    | none => prev
    | some best =>
      { prev with population := greedyAdd prev.problem prev.population (inner prev best) }

/-- decompose_search.rs, one step of the merge fold of refine_decomposed:
take the ranked-first individual of a partition population and extend the
accumulator, deep-copying and registering each of its routes. -/
def mergeStep (acc : Individual) (pop : List Individual) : Individual :=
  match pop.head? with
  | none => acc
  | some dec =>
    { acc with solution :=
      { required := acc.solution.required ++ dec.solution.required
        ignored := acc.solution.ignored ++ dec.solution.ignored
        unassigned := acc.solution.unassigned ++ dec.solution.unassigned
        locked := acc.solution.locked ++ dec.solution.locked
        routes := acc.solution.routes ++ dec.solution.routes.map RouteContext.deep_copy
        registry := dec.solution.routes.foldl (fun r rc => r.use_route rc)
          acc.solution.registry } }

/-- decompose_search.rs, DecomposeSearch::refine_decomposed: refine every
decomposed context, then fold the ranked-first individual of every partition
population into a fresh individual, extending routes, ignored, required,
locked and unassigned, registering each added route; finally let the pipeline
recompute the solution state. -/
def refineDecomposed (inner : Mutation) (repeatCount : Nat) (ctx : RefinementContext)
    (random : Nat) (dctxs : List RefinementContext) : Individual :=
  let pops := dctxs.map (fun d => (refineLoop inner d repeatCount).population)
  let merged := pops.foldl mergeStep (Individual.new ctx.problem random)
  { merged with solution := acceptSolutionState ctx.problem merged.solution }

/-- decompose_search.rs, DecomposeSearch::mutate_one: decompose the top-ranked
individual of the population; on success refine the decomposition, otherwise
fall back to the inner mutation on the provided individual. -/
def mutateOne (inner : Mutation) (repeatCount : Nat) (ctx : RefinementContext)
    (insertion_ctx : Individual) : Individual :=
  match ctx.population.head? with
  | none => inner ctx insertion_ctx
  | some top =>
    match decomposeIndividual ctx top with
    | none => inner ctx insertion_ctx
    | some dctxs => refineDecomposed inner repeatCount ctx top.random dctxs

theorem insertBy_perm (cmp : α → α → Ordering) (x : α) (l : List α) :
    insertBy cmp x l ~ x :: l := by
  induction l with
  | nil => exact List.Perm.refl _
  | cons y ys ih =>
    show (match cmp x y with
      | .lt => x :: y :: ys
      | _ => y :: insertBy cmp x ys) ~ x :: y :: ys
    cases cmp x y with
    | lt => exact List.Perm.refl _
    | eq => exact List.Perm.trans (List.Perm.cons y ih) (List.Perm.swap x y ys)
    | gt => exact List.Perm.trans (List.Perm.cons y ih) (List.Perm.swap x y ys)

theorem foldl_insertBy_perm (cmp : α → α → Ordering) :
    ∀ (l acc : List α), l.foldl (fun acc x => insertBy cmp x acc) acc ~ acc ++ l := by
  intro l
  induction l with
  | nil => intro acc; simp
  | cons x xs ih =>
    intro acc
    calc (x :: xs).foldl (fun acc x => insertBy cmp x acc) acc
        = xs.foldl (fun acc x => insertBy cmp x acc) (insertBy cmp x acc) := rfl
      _ ~ insertBy cmp x acc ++ xs := ih _
      _ ~ (x :: acc) ++ xs := (insertBy_perm cmp x acc).append_right xs
      _ ~ acc ++ x :: xs := List.perm_middle.symm

theorem sortByCmp_perm (cmp : α → α → Ordering) (l : List α) : sortByCmp cmp l ~ l := by
  simpa using foldl_insertBy_perm cmp l []

theorem insertBy_pairwise (cmp : α → α → Ordering) (R : α → α → Prop)
    (hlt : ∀ x y, cmp x y = .lt → R x y)
    (hlt2 : ∀ x y z, cmp x y = .lt → R y z → R x z)
    (hge : ∀ x y, cmp x y ≠ .lt → R y x) (x : α) :
    ∀ l : List α, l.Pairwise R → (insertBy cmp x l).Pairwise R := by
  intro l
  induction l with
  | nil =>
    intro _
    exact List.pairwise_singleton R x
  | cons y ys ih =>
    intro h
    rcases List.pairwise_cons.mp h with ⟨hy, hys⟩
    show (match cmp x y with
      | .lt => x :: y :: ys
      | _ => y :: insertBy cmp x ys).Pairwise R
    cases hc : cmp x y with
    | lt =>
      refine List.pairwise_cons.mpr ⟨?_, h⟩
      intro z hz
      rcases List.mem_cons.mp hz with h2 | h2
      · rw [h2]
        exact hlt x y hc
      · exact hlt2 x y z hc (hy z h2)
    | eq =>
      refine List.pairwise_cons.mpr ⟨?_, ih hys⟩
      intro z hz
      rcases List.mem_cons.mp ((insertBy_perm cmp x ys).mem_iff.mp hz) with h2 | h2
      · rw [h2]
        exact hge x y (by rw [hc]; intro hcon; cases hcon)
      · exact hy z h2
    | gt =>
      refine List.pairwise_cons.mpr ⟨?_, ih hys⟩
      intro z hz
      rcases List.mem_cons.mp ((insertBy_perm cmp x ys).mem_iff.mp hz) with h2 | h2
      · rw [h2]
        exact hge x y (by rw [hc]; intro hcon; cases hcon)
      · exact hy z h2

theorem sortByCmp_pairwise (cmp : α → α → Ordering) (R : α → α → Prop)
    (hlt : ∀ x y, cmp x y = .lt → R x y)
    (hlt2 : ∀ x y z, cmp x y = .lt → R y z → R x z)
    (hge : ∀ x y, cmp x y ≠ .lt → R y x) (l : List α) :
    (sortByCmp cmp l).Pairwise R := by
  have main : ∀ (l acc : List α), acc.Pairwise R →
      (l.foldl (fun acc x => insertBy cmp x acc) acc).Pairwise R := by
    intro l
    induction l with
    | nil => intro acc h; exact h
    | cons x xs ih =>
      intro acc h
      exact ih _ (insertBy_pairwise cmp R hlt hlt2 hge x acc h)
  exact main l [] (List.Pairwise.nil)

/-- The order the sorted route-distance list actually realizes: present
distances ascending, a present distance never after an absent one. -/
def routeDistanceOrdered (a b : Nat × Option Distance) : Prop :=
  match a.2, b.2 with
  | some ad, some bd => ad ≤ bd
  | none, some _ => False
  | _, _ => True

theorem routeDistanceCmp_lt {a b : Nat × Option Distance}
    (h : routeDistanceCmp a b = .lt) : routeDistanceOrdered a b := by
  unfold routeDistanceCmp at h
  unfold routeDistanceOrdered
  match ha : a.2, hb : b.2 with
  | some ad, some bd =>
    rw [ha, hb] at h
    exact le_of_lt (compare_floats_eq_lt.mp h)
  | some ad, none => trivial
  | none, some bd =>
    rw [ha, hb] at h
    cases h
  | none, none =>
    rw [ha, hb] at h
    cases h

theorem routeDistanceCmp_lt_trans {a b c : Nat × Option Distance}
    (h : routeDistanceCmp a b = .lt) (h2 : routeDistanceOrdered b c) :
    routeDistanceOrdered a c := by
  unfold routeDistanceCmp at h
  unfold routeDistanceOrdered at h2 ⊢
  match ha : a.2, hb : b.2, hc : c.2 with
  | some ad, some bd, some cd =>
    rw [ha, hb] at h
    rw [hb, hc] at h2
    exact le_trans (le_of_lt (compare_floats_eq_lt.mp h)) h2
  | some ad, some bd, none => trivial
  | some ad, none, some cd =>
    rw [hb, hc] at h2
    exact h2.elim
  | some ad, none, none => trivial
  | none, _, _ =>
    rw [ha] at h
    cases h

theorem routeDistanceCmp_not_lt {a b : Nat × Option Distance}
    (h : routeDistanceCmp a b ≠ .lt) : routeDistanceOrdered b a := by
  unfold routeDistanceCmp at h
  unfold routeDistanceOrdered
  match ha : a.2, hb : b.2 with
  | some ad, some bd =>
    rw [ha, hb] at h
    have : ¬ ad < bd := fun hcon => h (compare_floats_eq_lt.mpr hcon)
    exact le_of_not_lt this
  | some ad, none =>
    rw [ha, hb] at h
    exact absurd rfl h
  | none, some bd => trivial
  | none, none => trivial

theorem sorted_routeDistances_pairwise (l : List (Nat × Option Distance)) :
    (sortByCmp routeDistanceCmp l).Pairwise routeDistanceOrdered :=
  sortByCmp_pairwise routeDistanceCmp routeDistanceOrdered
    (fun _ _ => routeDistanceCmp_lt)
    (fun _ _ _ => routeDistanceCmp_lt_trans)
    (fun _ _ => routeDistanceCmp_not_lt) l

/-- Well-formedness of one enumerated sorted distance list: its entry indices
are distinct, in range and never equal to the own route index. -/
def entriesOk (n : Nat) (pr : Nat × List (Nat × Option Distance)) : Prop :=
  (pr.2.map Prod.fst).Nodup ∧ ∀ q ∈ pr.2, q.1 < n ∧ q.1 ≠ pr.1

theorem groupOf_facts {n : Nat} {ds : List (Nat × Option Distance)} {used : List Nat} {i : Nat}
    (hok : entriesOk n (i, ds)) (hin : i < n) (hi : i ∉ used) :
    (groupOf ds used i).length ≤ 3 ∧ (groupOf ds used i).Nodup ∧
      (∀ k ∈ groupOf ds used i, k < n ∧ k ∉ used) ∧ i ∈ groupOf ds used i := by
  obtain ⟨hnodup_ds, hentries⟩ := hok
  have hinner_sub : ∀ k ∈ ((ds.filter (fun q => q.1 ∉ used)).take 2).map (·.1),
      k < n ∧ k ≠ i ∧ k ∉ used := by
    intro k hk
    obtain ⟨q, hq, hqe⟩ := List.mem_map.mp hk
    have hq_filter : q ∈ ds.filter (fun q => q.1 ∉ used) := List.mem_of_mem_take hq
    have hq_mem : q ∈ ds := List.mem_of_mem_filter hq_filter
    have hq_not_used : q.1 ∉ used := by
      have := List.of_mem_filter hq_filter
      simpa using this
    obtain ⟨hlt, hne⟩ := hentries q hq_mem
    exact ⟨hqe ▸ hlt, hqe ▸ hne, hqe ▸ hq_not_used⟩
  have hinner_nodup : (((ds.filter (fun q => q.1 ∉ used)).take 2).map (·.1)).Nodup := by
    have hsub : (ds.filter (fun q => q.1 ∉ used)).take 2 <+ ds :=
      (List.take_sublist _ _).trans (List.filter_sublist ds)
    exact List.Nodup.sublist (hsub.map (·.1)) hnodup_ds
  have hi_not_inner : i ∉ ((ds.filter (fun q => q.1 ∉ used)).take 2).map (·.1) :=
    fun hmem => (hinner_sub i hmem).2.1 rfl
  refine ⟨?_, ?_, ?_, ?_⟩
  · have hlen : (((ds.filter (fun q => q.1 ∉ used)).take 2).map (·.1)).length ≤ 2 := by
      rw [List.length_map, List.length_take]
      exact min_le_left _ _
    rw [groupOf, List.length_append, List.length_singleton]
    omega
  · rw [groupOf, List.nodup_append]
    refine ⟨hinner_nodup, List.nodup_singleton i, ?_⟩
    intro a ha hb
    rw [List.mem_singleton] at hb
    subst hb
    exact hi_not_inner ha
  · intro k hk
    rcases List.mem_append.mp hk with h | h
    · obtain ⟨h1, h2, h3⟩ := hinner_sub k h
      exact ⟨h1, h3⟩
    · rw [List.mem_singleton] at h
      subst h
      exact ⟨hin, hi⟩
  · exact List.mem_append_right _ (List.mem_singleton_self i)

/--
The central grouping invariant: running the grouping fold on enumerated
well-formed distance lists whose indices continue the range and with every
index below the current position already used, every produced group has at
most 3 distinct members, all fresh; used indices never reappear; and every
in-range fresh index ends up in the output exactly once.
-/
theorem groupsGo_spec (n : Nat) :
    ∀ (pending : List (Nat × List (Nat × Option Distance))) (p : Nat) (used : List Nat),
    pending.map Prod.fst = List.range' p (n - p) → p ≤ n →
    (∀ pr ∈ pending, entriesOk n pr) →
    (∀ k, k < p → k ∈ used) →
    (∀ g ∈ groupsGo pending used, g.length ≤ 3 ∧ g.Nodup ∧ ∀ k ∈ g, k < n ∧ k ∉ used) ∧
    (∀ k, k ∈ used → (groupsGo pending used).flatten.count k = 0) ∧
    (∀ k, k < n → k ∉ used → (groupsGo pending used).flatten.count k = 1) := by
  intro pending
  induction pending with
  | nil =>
    intro p used h1 h2 _h3 h4
    have hnp : n - p = 0 := by
      have hl := congrArg List.length h1
      simp [List.length_range'] at hl
      omega
    refine ⟨by simp [groupsGo], by simp [groupsGo], ?_⟩
    intro k hk hknot
    exact absurd (h4 k (by omega)) hknot
  | cons hd rest ih =>
    intro p used h1 h2 h3 h4
    obtain ⟨i, ds⟩ := hd
    have hnp : n - p ≠ 0 := by
      intro hc
      rw [hc] at h1
      simp [List.range'] at h1
    obtain ⟨m, hm⟩ : ∃ m, n - p = m + 1 := ⟨n - p - 1, by omega⟩
    rw [hm] at h1
    have hrange : List.range' p (m + 1) = p :: List.range' (p + 1) m := rfl
    rw [hrange, List.map_cons] at h1
    injection h1 with h_i h_rest
    have hp_lt : p < n := by omega
    subst h_i
    have h_rest2 : rest.map Prod.fst = List.range' (i + 1) (n - (i + 1)) := by
      rw [h_rest]
      congr 1
      omega
    have hok : entriesOk n (i, ds) := h3 (i, ds) (List.mem_cons_self _ _)
    by_cases hi : i ∈ used
    · have heq : groupsGo ((i, ds) :: rest) used = groupsGo rest used := by
        simp [groupsGo, hi]
      have IH := ih (i + 1) used h_rest2 (by omega)
        (fun pr hpr => h3 pr (List.mem_cons_of_mem _ hpr))
        (fun k hk => by
          rcases Nat.lt_succ_iff_lt_or_eq.mp hk with h | h
          · exact h4 k h
          · exact h ▸ hi)
      rw [heq]
      exact IH
    · obtain ⟨hg_len, hg_nodup, hg_mem, hg_self⟩ := groupOf_facts hok hp_lt hi
      have heq : groupsGo ((i, ds) :: rest) used =
          groupOf ds used i :: groupsGo rest (used ++ groupOf ds used i) := by
        simp [groupsGo, hi]
      have hused2 : ∀ k, k < i + 1 → k ∈ used ++ groupOf ds used i := by
        intro k hk
        rcases Nat.lt_succ_iff_lt_or_eq.mp hk with h | h
        · exact List.mem_append_left _ (h4 k h)
        · rw [h]
          exact List.mem_append_right _ hg_self
      obtain ⟨IH1, IH2, IH3⟩ := ih (i + 1) (used ++ groupOf ds used i) h_rest2 (by omega)
        (fun pr hpr => h3 pr (List.mem_cons_of_mem _ hpr)) hused2
      rw [heq]
      refine ⟨?_, ?_, ?_⟩
      · intro g hg
        rcases List.mem_cons.mp hg with h | h
        · exact h ▸ ⟨hg_len, hg_nodup, hg_mem⟩
        · obtain ⟨l1, l2, l3⟩ := IH1 g h
          exact ⟨l1, l2, fun k hk =>
            ⟨(l3 k hk).1, fun hku => (l3 k hk).2 (List.mem_append_left _ hku)⟩⟩
      · intro k hk
        rw [List.flatten_cons, List.count_append]
        have hc1 : (groupOf ds used i).count k = 0 :=
          List.count_eq_zero.mpr (fun hmem => (hg_mem k hmem).2 hk)
        have hc2 := IH2 k (List.mem_append_left _ hk)
        omega
      · intro k hkn hknot
        rw [List.flatten_cons, List.count_append]
        by_cases hkg : k ∈ groupOf ds used i
        · have hc1 : (groupOf ds used i).count k = 1 :=
            List.count_eq_one_of_mem hg_nodup hkg
          have hc2 := IH2 k (List.mem_append_right _ hkg)
          omega
        · have hc1 : (groupOf ds used i).count k = 0 := List.count_eq_zero.mpr hkg
          have hc2 := IH3 k hkn (fun hc => by
            rcases List.mem_append.mp hc with h | h
            · exact hknot h
            · exact hkg h)
          omega

theorem indexedMedoids_map_fst (ind : Individual) :
    (indexedMedoids ind).map Prod.fst = List.range ind.solution.routes.length := by
  unfold indexedMedoids
  rw [List.map_map]
  have h : (Prod.fst ∘ fun p : Nat × RouteContext => (p.1, get_medoid p.2 ind.problem.transport))
      = Prod.fst := rfl
  rw [h, List.enum_map_fst]

theorem indexedMedoids_length (ind : Individual) :
    (indexedMedoids ind).length = ind.solution.routes.length := by
  have h := congrArg List.length (indexedMedoids_map_fst ind)
  simpa using h

theorem mem_indexedMedoids_fst_lt {ind : Individual} {q : Nat × Option Location}
    (hq : q ∈ indexedMedoids ind) : q.1 < ind.solution.routes.length := by
  have h : q.1 ∈ (indexedMedoids ind).map Prod.fst := List.mem_map_of_mem Prod.fst hq
  rw [indexedMedoids_map_fst] at h
  exact List.mem_range.mp h

theorem indexedMedoids_getElem (ind : Individual) (idx : Nat)
    (h : idx < (indexedMedoids ind).length) :
    (indexedMedoids ind)[idx] =
      (idx, get_medoid (ind.solution.routes.get ⟨idx, by
        rw [← indexedMedoids_length ind]; exact h⟩) ind.problem.transport) := by
  unfold indexedMedoids
  rw [List.getElem_map, List.getElem_enum]
  rfl

theorem routeGroupsDistancesWith_length (ind : Individual) (profile : Profile) :
    (routeGroupsDistancesWith ind profile).length = ind.solution.routes.length := by
  unfold routeGroupsDistancesWith
  rw [List.length_map, indexedMedoids_length]

theorem routeGroupsDistancesWith_getElem (ind : Individual) (profile : Profile) (idx : Nat)
    (h : idx < (routeGroupsDistancesWith ind profile).length) :
    (routeGroupsDistancesWith ind profile)[idx] =
      sortByCmp routeDistanceCmp (unsortedDistances ind profile idx
        (get_medoid (ind.solution.routes.get ⟨idx, by
          rw [← routeGroupsDistancesWith_length ind profile]; exact h⟩)
          ind.problem.transport)) := by
  unfold routeGroupsDistancesWith
  rw [List.getElem_map, indexedMedoids_getElem]

theorem unsortedDistances_map_fst (ind : Individual) (profile : Profile) (idx : Nat)
    (med : Option Location) :
    (unsortedDistances ind profile idx med).map Prod.fst =
      (List.range ind.solution.routes.length).filter (fun k => k ≠ idx) := by
  unfold unsortedDistances
  rw [List.map_map]
  have h : (Prod.fst ∘ fun inner : Nat × Option Location =>
      (inner.1, medoidPairDistance ind.problem.transport profile med inner.2)) = Prod.fst := rfl
  rw [h, ← indexedMedoids_map_fst, List.filter_map]
  rfl

theorem routeGroupsDistancesWith_entriesOk (ind : Individual) (profile : Profile) :
    ∀ pr ∈ (routeGroupsDistancesWith ind profile).enum,
      entriesOk ind.solution.routes.length pr := by
  intro pr hpr
  rw [List.mem_enum_iff_getElem?] at hpr
  rw [List.getElem?_eq_some] at hpr
  obtain ⟨hlt, hget⟩ := hpr
  rw [routeGroupsDistancesWith_getElem ind profile pr.1 hlt] at hget
  obtain ⟨med, hmed⟩ : ∃ med,
      sortByCmp routeDistanceCmp (unsortedDistances ind profile pr.1 med) = pr.2 := ⟨_, hget⟩
  constructor
  · rw [← hmed]
    have hperm : (sortByCmp routeDistanceCmp (unsortedDistances ind profile pr.1 med)).map Prod.fst
        ~ (unsortedDistances ind profile pr.1 med).map Prod.fst :=
      (sortByCmp_perm routeDistanceCmp _).map Prod.fst
    rw [hperm.nodup_iff, unsortedDistances_map_fst]
    exact (List.nodup_range _).filter _
  · intro q hq
    rw [← hmed] at hq
    have hq2 : q ∈ unsortedDistances ind profile pr.1 med :=
      (sortByCmp_perm routeDistanceCmp _).mem_iff.mp hq
    unfold unsortedDistances at hq2
    obtain ⟨inner, hinner, hqe⟩ := List.mem_map.mp hq2
    obtain ⟨hmem, hne⟩ := List.mem_filter.mp hinner
    constructor
    · rw [← hqe]
      exact mem_indexedMedoids_fst_lt hmem
    · rw [← hqe]
      simpa using hne

/--
The grouping of routeGroups: a partition of the route indices into groups of
at most three distinct indices each.
-/
theorem routeGroups_partition (ind : Individual) (groups : List (List Nat))
    (h : routeGroups ind = some groups) :
    (∀ g ∈ groups, g.length ≤ 3 ∧ g.Nodup ∧ ∀ k ∈ g, k < ind.solution.routes.length) ∧
    (∀ k, k < ind.solution.routes.length → groups.flatten.count k = 1) ∧
    (∀ k ∈ groups.flatten, k < ind.solution.routes.length) := by
  unfold routeGroups at h
  rw [Option.map_eq_some'] at h
  obtain ⟨r0, _hr0, hgroups⟩ := h
  have hspec := groupsGo_spec ind.solution.routes.length
    ((routeGroupsDistancesWith ind r0.actor.profile).enum) 0 []
    (by
      rw [List.enum_map_fst, routeGroupsDistancesWith_length, List.range_eq_range']
      simp)
    (Nat.zero_le _)
    (routeGroupsDistancesWith_entriesOk ind r0.actor.profile)
    (fun k hk => absurd hk (Nat.not_lt_zero k))
  obtain ⟨hs1, _hs2, hs3⟩ := hspec
  rw [← hgroups]
  refine ⟨?_, ?_, ?_⟩
  · intro g hg
    obtain ⟨l1, l2, l3⟩ := hs1 g hg
    exact ⟨l1, l2, fun k hk => (l3 k hk).1⟩
  · intro k hk
    exact hs3 k hk (List.not_mem_nil k)
  · intro k hk
    obtain ⟨g, hg, hkg⟩ := List.mem_flatten.mp hk
    exact ((hs1 g hg).2.2 k hkg).1

theorem countP_mem_eq_count_flatten (k : Nat) :
    ∀ groups : List (List Nat), (∀ g ∈ groups, g.Nodup) →
      groups.countP (fun g => decide (k ∈ g)) = groups.flatten.count k := by
  intro groups
  induction groups with
  | nil => intro _; rfl
  | cons g gs ih =>
    intro h
    rw [List.flatten_cons, List.count_append, List.countP_cons]
    rw [ih (fun g2 hg2 => h g2 (List.mem_cons_of_mem _ hg2))]
    by_cases hk : k ∈ g
    · rw [List.count_eq_one_of_mem (h g (List.mem_cons_self _ _)) hk]
      simp [hk]
      omega
    · rw [List.count_eq_zero.mpr hk]
      simp [hk]

/-- The partition property of the greedy grouping the spec intends, proved of
the DEBUG build (debug_assertions on, so the used-indices insertion inside
debug_assert! executes): every route index below the number of routes appears
in exactly one group and every group has at most 3 routes. The release build
does not have this property; see the claim C2 theorem below. -/
theorem grouping_is_partition (ind : Individual) (groups : List (List Nat))
    (h : routeGroups ind = some groups) :
    (∀ k, k < ind.solution.routes.length →
      groups.countP (fun g => decide (k ∈ g)) = 1) ∧
    (∀ g ∈ groups, g.length ≤ 3) := by
  obtain ⟨h1, h2, _h3⟩ := routeGroups_partition ind groups h
  constructor
  · intro k hk
    rw [countP_mem_eq_count_flatten k groups (fun g hg => (h1 g hg).2.1)]
    exact h2 k hk
  · intro g hg
    exact (h1 g hg).1

/-- Concrete witness fixture: two unit-distance locations. -/
def wTransport : Transport := ⟨fun _ x y => if x = y then 0 else 1⟩

/-- Concrete witness fixture: a problem with two actors. -/
def wProblem : Problem := ⟨wTransport, [⟨0, 0⟩, ⟨1, 0⟩], fun _ => 0⟩

/-- Concrete witness fixture: a two-route individual, one activity each. -/
def wIndividual : Individual :=
  ⟨wProblem,
   ⟨[], [], [], [], [⟨⟨0, 0⟩, ⟨[⟨0, some 10⟩]⟩⟩, ⟨⟨1, 0⟩, ⟨[⟨1, some 11⟩]⟩⟩],
    Registry.new wProblem.fleet⟩, 0⟩

/-- The debug-build partition property at the concrete two-route individual:
the grouping is [[1, 0]] and index 0 appears in exactly one group of size at
most 3. -/
theorem grouping_is_partition_witness :
    routeGroups wIndividual = some [[1, 0]] ∧
    ([[1, 0]] : List (List Nat)).countP (fun g => decide ((0 : Nat) ∈ g)) = 1 ∧
    ∀ g ∈ ([[1, 0]] : List (List Nat)), g.length ≤ 3 := by
  have h : routeGroups wIndividual = some [[1, 0]] := by
    norm_num [routeGroups, routeGroupsDistancesWith, unsortedDistances, indexedMedoids,
      get_medoid, minByCmp, compare_floats, medoidPairDistance, sortByCmp, insertBy,
      groupsGo, groupOf, wIndividual, wProblem, wTransport, routeDistanceCmp,
      List.enum, List.enumFrom]
  have main := grouping_is_partition wIndividual [[1, 0]] h
  exact ⟨h, main.1 0 (by decide), main.2⟩

/-- Counterexample to claim C4 as stated: the sort comparator of
create_multiple_individuals does not treat two absent (missing-medoid or
unreachable) distances as equal; the wildcard arm of the match returns
Greater for both orders of comparison. -/
theorem routeDistanceCmp_missing_missing_not_eq :
    routeDistanceCmp (1, none) (2, none) = Ordering.gt ∧
    routeDistanceCmp (2, none) (1, none) = Ordering.gt ∧
    routeDistanceCmp (1, none) (2, none) ≠ Ordering.eq := by
  exact ⟨rfl, rfl, by decide⟩

/-- Claim C4 (amended): in every sorted per-route distance list, entries with
a present distance are in ascending distance order and precede every entry
with an absent distance; in the comparator a present distance sorts before an
absent one and two absent distances compare Greater (not Equal), leaving
their mutual order implementation-defined; a pair distance is absent exactly
when a medoid is missing or the raw distance is negative (unreachable). -/
theorem route_distances_sorted (ind : Individual) (profile : Profile) :
    (∀ l ∈ routeGroupsDistancesWith ind profile, l.Pairwise routeDistanceOrdered) ∧
    (∀ (j k : Nat) (d d2 : Distance),
      routeDistanceCmp (j, some d) (k, some d2) = compare_floats d d2 ∧
      routeDistanceCmp (j, some d) (k, none) = Ordering.lt ∧
      routeDistanceCmp (j, none) (k, some d2) = Ordering.gt ∧
      routeDistanceCmp (j, none) (k, none) = Ordering.gt) ∧
    (∀ (a b : Location),
      medoidPairDistance ind.problem.transport profile (some a) (some b) =
        (if ind.problem.transport.distance profile a b < 0 then none
         else some (ind.problem.transport.distance profile a b)) ∧
      (∀ mb, medoidPairDistance ind.problem.transport profile none mb = none) ∧
      (∀ ma, medoidPairDistance ind.problem.transport profile ma none = none)) := by
  refine ⟨?_, ?_, ?_⟩
  · intro l hl
    obtain ⟨outer, _houter, hl2⟩ := List.mem_map.mp hl
    rw [← hl2]
    exact sorted_routeDistances_pairwise _
  · intro j k d d2
    exact ⟨rfl, rfl, rfl, rfl⟩
  · intro a b
    refine ⟨rfl, fun mb => rfl, fun ma => ?_⟩
    cases ma <;> rfl

/-- Witness for the amended claim C4 at the concrete two-route individual:
its first sorted distance list realizes the pairwise order. -/
theorem route_distances_sorted_witness :
    [((1 : Nat), some (1 : Distance))] ∈ routeGroupsDistancesWith wIndividual 0 ∧
    List.Pairwise routeDistanceOrdered [((1 : Nat), some (1 : Distance))] := by
  have heval : routeGroupsDistancesWith wIndividual 0 =
      [[(1, some 1)], [(0, some 1)]] := by
    norm_num [routeGroupsDistancesWith, unsortedDistances, indexedMedoids, get_medoid,
      minByCmp, compare_floats, medoidPairDistance, sortByCmp, insertBy,
      wIndividual, wProblem, wTransport, routeDistanceCmp, List.enum, List.enumFrom]
  have hmem : [((1 : Nat), some (1 : Distance))] ∈ routeGroupsDistancesWith wIndividual 0 := by
    rw [heval]
    exact List.mem_cons_self _ _
  exact ⟨hmem, (route_distances_sorted wIndividual 0).1 _ hmem⟩

/-- Claim C5: create_multiple_individuals appends exactly one extra empty
individual (no routes, deep-copied registry, carrying required, ignored,
unassigned and locked forward) if and only if required or unassigned of the
source is non-empty. -/
theorem empty_individual_appended (ind : Individual) (inds : List Individual)
    (h : createMultipleIndividuals ind = some inds) :
    ∃ groups, routeGroups ind = some groups ∧
      inds = groups.map (createPartialIndividual ind) ++ createEmptyIndividuals ind ∧
      (ind.solution.required = [] ∧ ind.solution.unassigned = [] →
        createEmptyIndividuals ind = []) ∧
      ((ind.solution.required ≠ [] ∨ ind.solution.unassigned ≠ []) →
        ∃ e, createEmptyIndividuals ind = [e] ∧
          e.solution.routes = [] ∧
          e.solution.required = ind.solution.required ∧
          e.solution.unassigned = ind.solution.unassigned ∧
          e.solution.ignored = ind.solution.ignored ∧
          e.solution.locked = ind.solution.locked ∧
          e.solution.registry = ind.solution.registry.deep_copy ∧
          e.problem = ind.problem ∧ e.random = ind.random) := by
  unfold createMultipleIndividuals at h
  rw [Option.map_eq_some'] at h
  obtain ⟨groups, hg, hinds⟩ := h
  refine ⟨groups, hg, hinds.symm, ?_, ?_⟩
  · rintro ⟨h1, h2⟩
    unfold createEmptyIndividuals
    rw [if_pos]
    rw [h1, h2]
    rfl
  · intro hne
    have hcond : (ind.solution.required.isEmpty && ind.solution.unassigned.isEmpty) = false := by
      rcases hne with h | h
      · have : ind.solution.required.isEmpty = false := by
          rw [List.isEmpty_eq_false_iff_exists_mem]
          rcases List.exists_mem_of_ne_nil _ h with ⟨x, hx⟩
          exact ⟨x, hx⟩
        simp [this]
      · have : ind.solution.unassigned.isEmpty = false := by
          rw [List.isEmpty_eq_false_iff_exists_mem]
          rcases List.exists_mem_of_ne_nil _ h with ⟨x, hx⟩
          exact ⟨x, hx⟩
        simp [this]
    unfold createEmptyIndividuals
    rw [if_neg (by rw [hcond]; exact Bool.false_ne_true)]
    exact ⟨_, rfl, rfl, rfl, rfl, rfl, rfl, rfl, rfl, rfl⟩

/-- Concrete fixture: a one-route individual that still has required job 7. -/
def cIndividual : Individual :=
  ⟨wProblem, ⟨[7], [], [], [], [⟨⟨0, 0⟩, ⟨[⟨0, some 10⟩]⟩⟩], Registry.new wProblem.fleet⟩, 0⟩

/-- Concrete fixture: an outer refinement context. -/
def cCtx : RefinementContext := ⟨wProblem, [], none⟩

theorem cIndividual_routeGroups : routeGroups cIndividual = some [[0]] := by
  norm_num [routeGroups, routeGroupsDistancesWith, unsortedDistances, indexedMedoids,
    get_medoid, minByCmp, compare_floats, medoidPairDistance, sortByCmp, insertBy,
    groupsGo, groupOf, cIndividual, wProblem, wTransport, routeDistanceCmp,
    List.enum, List.enumFrom]

/-- Witness for claim C5 at the concrete one-route individual with a leftover
required job: the carrier individual is appended and carries the job. -/
theorem empty_individual_appended_witness :
    ∃ groups, routeGroups cIndividual = some groups ∧
      ([[0]].map (createPartialIndividual cIndividual) ++ createEmptyIndividuals cIndividual) =
        groups.map (createPartialIndividual cIndividual) ++ createEmptyIndividuals cIndividual ∧
      (cIndividual.solution.required = [] ∧ cIndividual.solution.unassigned = [] →
        createEmptyIndividuals cIndividual = []) ∧
      ((cIndividual.solution.required ≠ [] ∨ cIndividual.solution.unassigned ≠ []) →
        ∃ e, createEmptyIndividuals cIndividual = [e] ∧
          e.solution.routes = [] ∧
          e.solution.required = cIndividual.solution.required ∧
          e.solution.unassigned = cIndividual.solution.unassigned ∧
          e.solution.ignored = cIndividual.solution.ignored ∧
          e.solution.locked = cIndividual.solution.locked ∧
          e.solution.registry = cIndividual.solution.registry.deep_copy ∧
          e.problem = cIndividual.problem ∧ e.random = cIndividual.random) := by
  have h : createMultipleIndividuals cIndividual =
      some ([[0]].map (createPartialIndividual cIndividual) ++
        createEmptyIndividuals cIndividual) := by
    simp only [createMultipleIndividuals, cIndividual_routeGroups, Option.map_some']
  exact empty_individual_appended cIndividual _ h

/-- Claim C6 (amended): a one-route individual with no required and no
unassigned jobs yields a single context, so decompose_individual returns
None; whenever the population is empty or decomposition returns None,
mutate_one returns the inner mutation applied to the provided individual; and
decompose_individual returns Some exactly when more than one context results. -/
theorem decompose_single_route_noop :
    (∀ (ctx : RefinementContext) (ind : Individual),
      ind.solution.routes.length = 1 → ind.solution.required = [] →
      ind.solution.unassigned = [] → decomposeIndividual ctx ind = none) ∧
    (∀ (inner : Mutation) (repeatCount : Nat) (ctx : RefinementContext) (ins : Individual),
      (ctx.population.head? = none → mutateOne inner repeatCount ctx ins = inner ctx ins) ∧
      (∀ top, ctx.population.head? = some top → decomposeIndividual ctx top = none →
        mutateOne inner repeatCount ctx ins = inner ctx ins)) ∧
    (∀ (ctx : RefinementContext) (ind : Individual) (dctxs : List RefinementContext),
      decomposeIndividual ctx ind = some dctxs → dctxs.length > 1) := by
  refine ⟨?_, ?_, ?_⟩
  · intro ctx ind hlen hreq hun
    obtain ⟨r, hr⟩ := List.length_eq_one.mp hlen
    simp [decomposeIndividual, createMultipleIndividuals, routeGroups, hr,
      routeGroupsDistancesWith, unsortedDistances, indexedMedoids, List.enum,
      List.enumFrom, sortByCmp, insertBy, groupsGo, groupOf,
      createEmptyIndividuals, hreq, hun]
  · intro inner repeatCount ctx ins
    constructor
    · intro h
      simp [mutateOne, h]
    · intro top h hdec
      simp [mutateOne, h, hdec]
  · intro ctx ind dctxs h
    unfold decomposeIndividual at h
    cases hc : createMultipleIndividuals ind with
    | none => rw [hc] at h; cases h
    | some inds =>
      rw [hc] at h
      simp only [Option.map_some', Option.some_bind] at h
      by_cases hlen : (inds.map (fun i => RefinementContext.mk ctx.problem [i] ctx.quota)).length > 1
      · rw [if_pos hlen] at h
        injection h with h2
        rw [← h2]
        exact hlen
      · rw [if_neg hlen] at h
        cases h

/-- Concrete fixture: a one-route individual with nothing left to assign. -/
def sIndividual : Individual :=
  ⟨wProblem, ⟨[], [], [], [], [⟨⟨0, 0⟩, ⟨[⟨0, some 10⟩]⟩⟩], Registry.new wProblem.fleet⟩, 0⟩

/-- Witness for the amended claim C6: the clean one-route individual does not
decompose, and with an empty population mutate_one is the inner mutation. -/
theorem decompose_single_route_noop_witness :
    decomposeIndividual cCtx sIndividual = none ∧
    mutateOne (fun _ i => i) 2 cCtx cIndividual = cIndividual := by
  constructor
  · exact decompose_single_route_noop.1 cCtx sIndividual rfl rfl rfl
  · exact (decompose_single_route_noop.2.1 (fun _ i => i) 2 cCtx cIndividual).1 rfl

/-- Counterexample to claim C6 as stated: a one-route individual with a
required job decomposes after all, because the unassigned-carrier individual
makes a second context; decompose_individual returns Some of two contexts,
not None. -/
theorem decompose_single_route_claim_false :
    cIndividual.solution.routes.length = 1 ∧
    ∃ dctxs, decomposeIndividual cCtx cIndividual = some dctxs ∧ dctxs.length = 2 := by
  refine ⟨rfl, ?_⟩
  have hlen2 : (([[0]].map (createPartialIndividual cIndividual) ++
      createEmptyIndividuals cIndividual).map
        (fun i => RefinementContext.mk cCtx.problem [i] cCtx.quota)).length = 2 := by
    simp [createEmptyIndividuals, cIndividual]
  refine ⟨_, ?_, hlen2⟩
  simp only [decomposeIndividual, createMultipleIndividuals, cIndividual_routeGroups,
    Option.map_some', Option.some_bind]
  rw [if_pos (by rw [hlen2]; omega)]

theorem mem_indexedMedoids_eq {ind : Individual} {inner : Nat × Option Location}
    (h : inner ∈ indexedMedoids ind) :
    ∃ hlt : inner.1 < ind.solution.routes.length,
      inner.2 = get_medoid (ind.solution.routes.get ⟨inner.1, hlt⟩) ind.problem.transport := by
  rw [List.mem_iff_getElem] at h
  obtain ⟨i, hi, hget⟩ := h
  have hi2 : i < ind.solution.routes.length := by
    rw [← indexedMedoids_length ind]
    exact hi
  rw [indexedMedoids_getElem ind i hi] at hget
  have hfst : inner.1 = i := by rw [← hget]
  subst hfst
  exact ⟨hi2, (congrArg Prod.snd hget).symm⟩

/-- Claim C10: create_multiple_individuals returns None exactly for an
individual with no routes; otherwise the whole pipeline runs on the distance
lists computed under the vehicle profile of the FIRST route, and every entry
(j, d) of the sorted list of route idx carries exactly the distance from the
medoid of route idx to the medoid of route j computed under that single
profile, regardless of the profiles of the other routes. -/
theorem pairwise_distances_use_first_profile :
    (∀ ind : Individual, ind.solution.routes = [] → createMultipleIndividuals ind = none) ∧
    (∀ (ind : Individual) (r0 : RouteContext) (rest : List RouteContext),
      ind.solution.routes = r0 :: rest →
      createMultipleIndividuals ind =
        some ((groupsGo ((routeGroupsDistancesWith ind r0.actor.profile).enum) []).map
          (createPartialIndividual ind) ++ createEmptyIndividuals ind) ∧
      ∀ (idx : Nat) (h : idx < (routeGroupsDistancesWith ind r0.actor.profile).length),
        ∀ jd ∈ (routeGroupsDistancesWith ind r0.actor.profile)[idx],
          ∃ hj : jd.1 < ind.solution.routes.length,
            jd.1 ≠ idx ∧
            jd.2 = medoidPairDistance ind.problem.transport r0.actor.profile
              (get_medoid (ind.solution.routes.get ⟨idx, by
                rw [← routeGroupsDistancesWith_length ind r0.actor.profile]; exact h⟩)
                ind.problem.transport)
              (get_medoid (ind.solution.routes.get ⟨jd.1, hj⟩) ind.problem.transport)) := by
  constructor
  · intro ind h
    simp [createMultipleIndividuals, routeGroups, h]
  · intro ind r0 rest hroutes
    constructor
    · have hhead : ind.solution.routes.head? = some r0 := by rw [hroutes]; rfl
      simp [createMultipleIndividuals, routeGroups, hhead]
    · intro idx h jd hjd
      rw [routeGroupsDistancesWith_getElem ind r0.actor.profile idx h] at hjd
      have hjd2 : jd ∈ unsortedDistances ind r0.actor.profile idx
          (get_medoid (ind.solution.routes.get ⟨idx, by
            rw [← routeGroupsDistancesWith_length ind r0.actor.profile]; exact h⟩)
            ind.problem.transport) :=
        (sortByCmp_perm routeDistanceCmp _).mem_iff.mp hjd
      unfold unsortedDistances at hjd2
      obtain ⟨inner, hinner, hje⟩ := List.mem_map.mp hjd2
      obtain ⟨hmem, hne⟩ := List.mem_filter.mp hinner
      obtain ⟨hlt, hinner2⟩ := mem_indexedMedoids_eq hmem
      subst hje
      refine ⟨hlt, by simpa using hne, ?_⟩
      rw [hinner2]

/-- Concrete fixture: an individual with no routes at all. -/
def eIndividual : Individual :=
  ⟨wProblem, ⟨[], [], [], [], [], Registry.new wProblem.fleet⟩, 0⟩

/-- Witness for claim C10: the empty individual does not decompose, and on
the concrete two-route individual the entry (1, some 1) of the first sorted
list carries the medoid-to-medoid distance under the first profile. -/
theorem pairwise_distances_use_first_profile_witness :
    createMultipleIndividuals eIndividual = none ∧
    ∃ hj : (1 : Nat) < wIndividual.solution.routes.length,
      (1 : Nat) ≠ 0 ∧
      (some (1 : Distance) : Option Distance) =
        medoidPairDistance wIndividual.problem.transport 0
          (get_medoid (wIndividual.solution.routes.get ⟨0, by decide⟩)
            wIndividual.problem.transport)
          (get_medoid (wIndividual.solution.routes.get ⟨1, hj⟩) wIndividual.problem.transport) := by
  constructor
  · exact pairwise_distances_use_first_profile.1 eIndividual rfl
  · have hroutes : wIndividual.solution.routes =
        ⟨⟨0, 0⟩, ⟨[⟨0, some 10⟩]⟩⟩ :: [⟨⟨1, 0⟩, ⟨[⟨1, some 11⟩]⟩⟩] := rfl
    have heval : routeGroupsDistancesWith wIndividual 0 =
        [[(1, some 1)], [(0, some 1)]] := by
      norm_num [routeGroupsDistancesWith, unsortedDistances, indexedMedoids, get_medoid,
        minByCmp, compare_floats, medoidPairDistance, sortByCmp, insertBy,
        wIndividual, wProblem, wTransport, routeDistanceCmp, List.enum, List.enumFrom]
    have hlen : (0 : Nat) < (routeGroupsDistancesWith wIndividual 0).length := by
      rw [heval]
      decide
    have hmem : ((1 : Nat), some (1 : Distance)) ∈ (routeGroupsDistancesWith wIndividual 0)[0] := by
      have h0 : (routeGroupsDistancesWith wIndividual 0)[0] =
          ([(1, some 1)] : List (Nat × Option Distance)) := by
        simp only [heval]
        rfl
      rw [h0]
      exact List.mem_cons_self _ _
    have main := ((pairwise_distances_use_first_profile.2 wIndividual _ _ hroutes).2
      0 hlen) ((1 : Nat), some (1 : Distance)) hmem
    obtain ⟨hj, hne, heq⟩ := main
    exact ⟨hj, hne, heq⟩

/-- The jobs served in the routes of a solution. -/
def servedJobs (s : SolutionContext) : List Job :=
  s.routes.flatMap (fun rc => rc.tour.jobs)

theorem map_deep_copy (l : List RouteContext) : l.map RouteContext.deep_copy = l :=
  List.map_id l

theorem use_route_fold_mono (routes : List RouteContext) :
    ∀ (reg : Registry) (a : Actor), a ∈ reg.used →
      a ∈ (routes.foldl (fun r rc => r.use_route rc) reg).used := by
  induction routes with
  | nil => intro reg a h; exact h
  | cons rc rcs ih =>
    intro reg a h
    exact ih (reg.use_route rc) a (List.mem_cons_of_mem _ h)

theorem use_route_fold_mem (routes : List RouteContext) :
    ∀ (reg : Registry) (rc : RouteContext), rc ∈ routes →
      rc.actor ∈ (routes.foldl (fun r rc => r.use_route rc) reg).used := by
  induction routes with
  | nil => intro reg rc h; cases h
  | cons x xs ih =>
    intro reg rc h
    rcases List.mem_cons.mp h with h | h
    · subst h
      exact use_route_fold_mono xs (reg.use_route rc) rc.actor (List.mem_cons_self _ _)
    · exact ih (reg.use_route x) rc h

theorem foldl_mergeStep_routes (inds : List Individual) :
    ∀ acc : Individual,
      ((inds.map (fun i => [i])).foldl mergeStep acc).solution.routes =
        acc.solution.routes ++ (inds.map (fun i => i.solution.routes)).flatten := by
  induction inds with
  | nil => intro acc; simp
  | cons i is ih =>
    intro acc
    rw [List.map_cons, List.foldl_cons, ih, List.map_cons, List.flatten_cons]
    have hstep : (mergeStep acc [i]).solution.routes =
        acc.solution.routes ++ i.solution.routes := by
      show (acc.solution.routes ++ i.solution.routes.map RouteContext.deep_copy) = _
      rw [map_deep_copy]
    rw [hstep, List.append_assoc]

theorem foldl_mergeStep_used (inds : List Individual) :
    ∀ (acc : Individual) (a : Actor),
      (a ∈ acc.solution.registry.used ∨ ∃ i ∈ inds, ∃ rc ∈ i.solution.routes, rc.actor = a) →
      a ∈ ((inds.map (fun i => [i])).foldl mergeStep acc).solution.registry.used := by
  induction inds with
  | nil =>
    intro acc a h
    rcases h with h | ⟨i, hi, _⟩
    · exact h
    · cases hi
  | cons i is ih =>
    intro acc a h
    rw [List.map_cons, List.foldl_cons]
    have hstep : (mergeStep acc [i]).solution.registry =
        i.solution.routes.foldl (fun r rc => r.use_route rc) acc.solution.registry := rfl
    rcases h with h | ⟨i2, hi2, rc, hrc, ha⟩
    · refine ih (mergeStep acc [i]) a (Or.inl ?_)
      rw [hstep]
      exact use_route_fold_mono _ _ _ h
    · rcases List.mem_cons.mp hi2 with h2 | h2
      · subst h2
        refine ih (mergeStep acc [i2]) a (Or.inl ?_)
        rw [hstep]
        rw [← ha]
        exact use_route_fold_mem _ _ rc hrc
      · exact ih (mergeStep acc [i]) a (Or.inr ⟨i2, h2, rc, hrc, ha⟩)

theorem filterMap_get?_range (l : List α) :
    (List.range l.length).filterMap (fun i => l.get? i) = l := by
  induction l with
  | nil => rfl
  | cons x xs ih =>
    rw [List.length_cons, List.range_succ_eq_map, List.filterMap_cons]
    show x :: List.filterMap (fun i => (x :: xs).get? i)
      (List.map Nat.succ (List.range xs.length)) = x :: xs
    rw [List.filterMap_map]
    show x :: List.filterMap (fun i => xs.get? i) (List.range xs.length) = x :: xs
    rw [ih]

theorem decomposeIndividual_inv (ctx : RefinementContext) (ind : Individual)
    (dctxs : List RefinementContext) (h : decomposeIndividual ctx ind = some dctxs) :
    ∃ inds, createMultipleIndividuals ind = some inds ∧
      dctxs = inds.map (fun i => RefinementContext.mk ctx.problem [i] ctx.quota) ∧
      inds.length > 1 := by
  unfold decomposeIndividual at h
  cases hc : createMultipleIndividuals ind with
  | none => rw [hc] at h; cases h
  | some inds =>
    rw [hc] at h
    simp only [Option.map_some', Option.some_bind] at h
    by_cases hlen : (inds.map (fun i => RefinementContext.mk ctx.problem [i] ctx.quota)).length > 1
    · rw [if_pos hlen] at h
      injection h with h2
      refine ⟨inds, rfl, h2.symm, ?_⟩
      rw [List.length_map] at hlen
      exact hlen
    · rw [if_neg hlen] at h
      cases h

theorem createEmptyIndividuals_routes (ind : Individual) :
    ∀ e ∈ createEmptyIndividuals ind, e.solution.routes = [] := by
  intro e he
  unfold createEmptyIndividuals at he
  by_cases hc : (ind.solution.required.isEmpty && ind.solution.unassigned.isEmpty) = true
  · rw [if_pos hc] at he
    cases he
  · rw [if_neg hc] at he
    rcases List.mem_singleton.mp he with h
    rw [h]

theorem createPartialIndividual_routes (ind : Individual) (g : List Nat) :
    (createPartialIndividual ind g).solution.routes =
      g.filterMap (fun idx => ind.solution.routes.get? idx) := by
  show g.filterMap (fun idx => (ind.solution.routes.get? idx).map RouteContext.deep_copy) = _
  congr 1
  funext idx
  cases ind.solution.routes.get? idx <;> rfl

theorem flatten_groups_perm_range (ind : Individual) (groups : List (List Nat))
    (h : routeGroups ind = some groups) :
    groups.flatten ~ List.range ind.solution.routes.length := by
  obtain ⟨_h1, h2, h3⟩ := routeGroups_partition ind groups h
  rw [List.perm_iff_count]
  intro k
  by_cases hk : k < ind.solution.routes.length
  · rw [h2 k hk,
      List.count_eq_one_of_mem (List.nodup_range _) (List.mem_range.mpr hk)]
  · rw [List.count_eq_zero.mpr (fun hc => hk (h3 k hc)),
      List.count_eq_zero.mpr (fun hc => hk (List.mem_range.mp hc))]

/-- The routes of the merged individual are exactly the deep-copied routes of
the group individuals; as every group index appears exactly once, they are a
permutation of the routes of the source individual. -/
theorem merged_routes_perm (ctx : RefinementContext) (ind : Individual)
    (inds : List Individual) (groups : List (List Nat))
    (hg : routeGroups ind = some groups)
    (hinds : inds = groups.map (createPartialIndividual ind) ++ createEmptyIndividuals ind)
    (random : Nat) (acc : Individual) (hacc : acc = Individual.new ctx.problem random) :
    ((inds.map (fun i => [i])).foldl mergeStep acc).solution.routes ~
      ind.solution.routes := by
  rw [foldl_mergeStep_routes, hacc]
  show [] ++ (inds.map (fun i => i.solution.routes)).flatten ~ _
  rw [List.nil_append, hinds, List.map_append, List.flatten_append]
  have hempty : ((createEmptyIndividuals ind).map (fun i => i.solution.routes)).flatten = [] := by
    rcases hce : createEmptyIndividuals ind with _ | ⟨e, es⟩
    · rfl
    · have he := createEmptyIndividuals_routes ind
      rw [hce] at he
      unfold createEmptyIndividuals at hce
      by_cases hc : (ind.solution.required.isEmpty && ind.solution.unassigned.isEmpty) = true
      · rw [if_pos hc] at hce
        cases hce
      · rw [if_neg hc] at hce
        injection hce with h1 h2
        rw [← h2, List.map_cons, List.map_nil, List.flatten_cons, List.flatten_nil,
          List.append_nil]
        exact he e (List.mem_cons_self _ _)
  rw [hempty, List.append_nil, List.map_map]
  have hmap : ((fun i : Individual => i.solution.routes) ∘ createPartialIndividual ind) =
      fun g => g.filterMap (fun idx => ind.solution.routes.get? idx) := by
    funext g
    exact createPartialIndividual_routes ind g
  rw [hmap]
  have hflat : (groups.map
      (fun g => g.filterMap (fun idx => ind.solution.routes.get? idx))).flatten =
      groups.flatten.filterMap (fun idx => ind.solution.routes.get? idx) :=
    (List.filterMap_flatten _ groups).symm
  rw [hflat]
  have hperm := (flatten_groups_perm_range ind groups hg).filterMap
    (fun idx => ind.solution.routes.get? idx)
  rw [filterMap_get?_range] at hperm
  exact hperm

/-- The merge round-trip the spec intends, proved of the DEBUG build (whose
grouping partitions the route indices): for every individual that decomposes
into more than one partition, decomposing and then merging with
repeat_count = 0 (no inner mutation runs) yields an individual whose routes
are a permutation of the source routes - hence the same set of served jobs
and the same per-actor route composition - and whose registry marks as used
every actor of every route of every partition. The release build violates
this; see the claim C3 theorem below. -/
theorem decompose_then_merge_roundtrip (ctx : RefinementContext) (ind : Individual)
    (inner : Mutation) (dctxs : List RefinementContext)
    (h : decomposeIndividual ctx ind = some dctxs) :
    ((refineDecomposed inner 0 ctx ind.random dctxs).solution.routes ~
      ind.solution.routes) ∧
    (∀ j, j ∈ servedJobs (refineDecomposed inner 0 ctx ind.random dctxs).solution ↔
      j ∈ servedJobs ind.solution) ∧
    (∀ a, (refineDecomposed inner 0 ctx ind.random dctxs).solution.routes.filter
        (fun rc => rc.actor = a) ~
      ind.solution.routes.filter (fun rc => rc.actor = a)) ∧
    (∀ d ∈ dctxs, ∀ pind ∈ d.population, ∀ rc ∈ pind.solution.routes,
      rc.actor ∈ (refineDecomposed inner 0 ctx ind.random dctxs).solution.registry.used) := by
  obtain ⟨inds, hcm, hdctxs, _hlen⟩ := decomposeIndividual_inv ctx ind dctxs h
  obtain ⟨groups, hg, hinds⟩ : ∃ groups, routeGroups ind = some groups ∧
      inds = groups.map (createPartialIndividual ind) ++ createEmptyIndividuals ind := by
    unfold createMultipleIndividuals at hcm
    rw [Option.map_eq_some'] at hcm
    obtain ⟨groups, hg, hi⟩ := hcm
    exact ⟨groups, hg, hi.symm⟩
  have hpops : dctxs.map (fun d => (refineLoop inner d 0).population) =
      inds.map (fun i => [i]) := by
    rw [hdctxs, List.map_map]
    rfl
  have hmer : refineDecomposed inner 0 ctx ind.random dctxs =
      (inds.map (fun i => [i])).foldl mergeStep (Individual.new ctx.problem ind.random) := by
    show (dctxs.map (fun d => (refineLoop inner d 0).population)).foldl mergeStep
      (Individual.new ctx.problem ind.random) = _
    rw [hpops]
  have hroutes : (refineDecomposed inner 0 ctx ind.random dctxs).solution.routes ~
      ind.solution.routes := by
    rw [hmer]
    exact merged_routes_perm ctx ind inds groups hg hinds ind.random _ rfl
  refine ⟨hroutes, ?_, ?_, ?_⟩
  · intro j
    constructor
    · intro hj
      rw [servedJobs, List.mem_flatMap] at hj ⊢
      obtain ⟨rc, hrc, hjrc⟩ := hj
      exact ⟨rc, hroutes.mem_iff.mp hrc, hjrc⟩
    · intro hj
      rw [servedJobs, List.mem_flatMap] at hj ⊢
      obtain ⟨rc, hrc, hjrc⟩ := hj
      exact ⟨rc, hroutes.mem_iff.mpr hrc, hjrc⟩
  · intro a
    exact hroutes.filter _
  · intro d hd pind hpind rc hrc
    rw [hmer]
    apply foldl_mergeStep_used
    right
    rw [hdctxs] at hd
    obtain ⟨i, hi, hde⟩ := List.mem_map.mp hd
    have hpi : pind = i := by
      rw [← hde] at hpind
      simpa using hpind
    exact ⟨i, hi, rc, by rw [← hpi]; exact hrc, rfl⟩

/-- The concrete decomposition of the one-route individual with a required
job: its route-group context plus the unassigned-carrier context. -/
def cDecomposed : List RefinementContext :=
  (([[0]].map (createPartialIndividual cIndividual)) ++ createEmptyIndividuals cIndividual).map
    (fun i => RefinementContext.mk cCtx.problem [i] cCtx.quota)

theorem cDecomposed_some : decomposeIndividual cCtx cIndividual = some cDecomposed := by
  have hlen2 : ((([[0]].map (createPartialIndividual cIndividual)) ++
      createEmptyIndividuals cIndividual).map
        (fun i => RefinementContext.mk cCtx.problem [i] cCtx.quota)).length = 2 := by
    simp [createEmptyIndividuals, cIndividual]
  simp only [decomposeIndividual, createMultipleIndividuals, cIndividual_routeGroups,
    Option.map_some', Option.some_bind]
  rw [if_pos (by rw [hlen2]; omega)]
  rfl

/-- The debug-build round-trip at the concrete decomposable individual:
merging the untouched partitions gives back a permutation of the source
routes and the same served jobs. -/
theorem decompose_then_merge_roundtrip_witness :
    ((refineDecomposed (fun _ i => i) 0 cCtx cIndividual.random cDecomposed).solution.routes ~
      cIndividual.solution.routes) ∧
    (∀ j, j ∈ servedJobs
        (refineDecomposed (fun _ i => i) 0 cCtx cIndividual.random cDecomposed).solution ↔
      j ∈ servedJobs cIndividual.solution) := by
  have main := decompose_then_merge_roundtrip cCtx cIndividual (fun _ i => i)
    cDecomposed cDecomposed_some
  exact ⟨main.1, main.2.1⟩

/-- evolution/mod.rs, should_add_solution: quota.map_or(false, is_reached) and
population.size() == 0; the quota field some b models a quota handle whose
is_reached returns b. -/
def should_add_solution (ctx : RefinementContext) : Bool :=
  let is_quota_reached := ctx.quota.getD false
  let is_population_empty := ctx.population.length == 0
  is_population_empty || !is_quota_reached

/-- Claim C7: should_add_solution is true whenever the population is empty,
regardless of quota; with the quota reached it is true only for an empty
population; in general it is true exactly when the population is empty or
the quota is not reached. -/
theorem should_add_solution_spec (ctx : RefinementContext) :
    (should_add_solution ctx = true ↔
      (ctx.population = [] ∨ ctx.quota.getD false = false)) ∧
    (ctx.population = [] → should_add_solution ctx = true) ∧
    (ctx.quota.getD false = true →
      (should_add_solution ctx = true ↔ ctx.population = [])) := by
  refine ⟨?_, ?_, ?_⟩
  · simp [should_add_solution, List.length_eq_zero]
  · intro h
    simp [should_add_solution, h]
  · intro h
    simp [should_add_solution, h, List.length_eq_zero]

/-- Witness for claim C7: with a reached quota, an empty population still
accepts a solution and a non-empty one does not. -/
theorem should_add_solution_spec_witness :
    should_add_solution ⟨wProblem, [], some true⟩ = true ∧
    (should_add_solution ⟨wProblem, [cIndividual], some true⟩ = true ↔
      ([cIndividual] : List Individual) = []) :=
  ⟨(should_add_solution_spec ⟨wProblem, [], some true⟩).2.1 rfl,
   (should_add_solution_spec ⟨wProblem, [cIndividual], some true⟩).2.2 rfl⟩

/-- The slice of the evolution configuration the modelled startup path reads:
the initial construction methods (builder id, weight) - only emptiness is
inspected here - and the optional population variation factory. -/
structure EvolutionConfig where
  initialMethods : List (Nat × Nat)
  variation : Option Nat

/-- The observable outcome of starting the evolution simulator. -/
inductive RunOutcome where
  | ok
  | err (msg : String)
  | panicked
deriving DecidableEq

/-- evolution/mod.rs, EvolutionSimulator::new: fails with a string error on an
empty initial-method set. -/
def simulatorNew (config : EvolutionConfig) : Except String EvolutionConfig :=
  if config.initialMethods.isEmpty then
    .error "at least one initial method has to be specified"
  else .ok config

/-- evolution/mod.rs, EvolutionSimulator::run up to the construction of the
refinement context: create_refinement_ctx takes the population variation and
unwraps it, so a missing variation is a panic (Option::unwrap on None), not a
string error. The rest of the run (seeding loop, strategy) builds no claim
settled here and is collapsed into ok. -/
def simulatorRun (config : EvolutionConfig) : RunOutcome :=
  match simulatorNew config with
  | .error msg => .err msg
  | .ok cfg =>
    match cfg.variation with
    | none => .panicked
    | some _ => .ok

/-- Claim C8 (amended): an empty initial-method set is surfaced as a single
string error and the engine refuses to start; a missing population variation
instead makes create_refinement_ctx panic on Option::unwrap - no string error
reaches the caller on that path. -/
theorem startup_config_errors :
    (∀ config : EvolutionConfig, config.initialMethods = [] →
      simulatorRun config = .err "at least one initial method has to be specified" ∧
      ∀ cfg, simulatorNew config ≠ .ok cfg) ∧
    (∀ config : EvolutionConfig, config.initialMethods ≠ [] → config.variation = none →
      simulatorRun config = .panicked ∧ ∀ msg, simulatorRun config ≠ .err msg) := by
  constructor
  · intro config h
    have hc : config.initialMethods.isEmpty = true := by rw [h]; rfl
    constructor
    · simp [simulatorRun, simulatorNew, hc]
    · intro cfg
      simp [simulatorNew, hc]
  · intro config h hv
    have hc : config.initialMethods.isEmpty = false := by
      rcases hne : config.initialMethods with _ | ⟨m, ms⟩
      · exact absurd hne h
      · rfl
    constructor
    · simp [simulatorRun, simulatorNew, hc, hv]
    · intro msg
      simp [simulatorRun, simulatorNew, hc, hv]

/-- Witness for the amended claim C8 at concrete configurations. -/
theorem startup_config_errors_witness :
    simulatorRun ⟨[], some 0⟩ = .err "at least one initial method has to be specified" ∧
    simulatorRun ⟨[(0, 1)], none⟩ = .panicked :=
  ⟨(startup_config_errors.1 ⟨[], some 0⟩ rfl).1,
   (startup_config_errors.2 ⟨[(0, 1)], none⟩ (by simp) rfl).1⟩

/-- Counterexample to claim C8 as stated: a configuration with one initial
method but no population variation does not surface a string error; the
modelled run panics on the unwrap in create_refinement_ctx. -/
theorem missing_variation_not_string_error :
    simulatorRun ⟨[(0, 1)], none⟩ = .panicked ∧
    ∀ msg, simulatorRun ⟨[(0, 1)], none⟩ ≠ RunOutcome.err msg := by
  constructor
  · rfl
  · intro msg h
    cases h

/-- reader.rs, ProblemProperties. -/
structure ProblemProperties where
  has_multi_dimen_capacity : Bool
  has_breaks : Bool
  has_skills : Bool
  has_unreachable_locations : Bool
  has_fixed_cost : Bool
  has_reload : Bool
  even_dist : Option Distance

/-- Rust f64::round: round half away from zero. -/
def rustRound (q : ℚ) : Int :=
  if q ≥ 0 then ⌊q + 1 / 2⌋ else -⌊-q + 1 / 2⌋

/-- One constraint module of the pragmatic pipeline, carrying the constructor
arguments the reader passes (codes, penalties, thresholds). The capacity
payload of the reload threshold closures: i32 for the single-dimension case;
for the multi-dimension case the scalar product of MultiDimensionalCapacity
(whose source is outside this repository) is modelled from the spec as taking
the threshold share of every dimension. -/
inductive ConstraintModule where
  | transportModule (code : Nat)
  | capacityModule (multi : Bool) (code : Nat)
  | reloadCapacitySingle (code : Nat) (extraCost : Distance) (threshold : Int → Int)
  | reloadCapacityMulti (code : Nat) (extraCost : Distance) (threshold : List Int → List Distance)
  | breakModule (code : Nat) (unassignedPenalty : Option Distance) (extraBreakCost : Bool)
  | skillsModule (code : Nat)
  | strictLockingModule (code : Nat)
  | travelModule (durationCode : Nat) (distanceCode : Nat)
  | reachableModule (code : Nat)
  | extraCostModule
  | evenDistributionModule (multi : Bool) (extraCost : Distance)

/-- reader.rs, add_capacity_module: with reloads a reload-capacity module with
intermediate code 2, extra cost 100 and threshold 0.9 of the vehicle capacity
(rounded for the i32 single-dimension case); otherwise a plain capacity
module. -/
def add_capacity_module (props : ProblemProperties) : List ConstraintModule :=
  if props.has_reload then
    if props.has_multi_dimen_capacity then
      [.reloadCapacityMulti 2 100 (fun capacity => capacity.map (fun c => (c : ℚ) * (9 / 10)))]
    else
      [.reloadCapacitySingle 2 100 (fun capacity => rustRound ((capacity : ℚ) * (9 / 10)))]
  else
    if props.has_multi_dimen_capacity then [.capacityModule true 2]
    else [.capacityModule false 2]

/-- reader.rs, add_even_dist_module. -/
def add_even_dist_module (props : ProblemProperties) : List ConstraintModule :=
  match props.even_dist with
  | some penalty =>
    if props.has_multi_dimen_capacity then [.evenDistributionModule true penalty]
    else [.evenDistributionModule false penalty]
  | none => []

/-- reader.rs, create_constraint_pipeline: the ordered module list as a
function of the problem properties, the locks (only emptiness matters) and
the presence of travel limits. -/
def create_constraint_pipeline (props : ProblemProperties) (locks : List Nat)
    (limits : Bool) : List ConstraintModule :=
  [.transportModule 1] ++ add_capacity_module props ++ add_even_dist_module props ++
  (if props.has_breaks then [.breakModule 4 (some (-100)) false] else []) ++
  (if props.has_skills then [.skillsModule 10] else []) ++
  (if !locks.isEmpty then [.strictLockingModule 3] else []) ++
  (if limits then [.travelModule 5 6] else []) ++
  (if props.has_unreachable_locations then [.reachableModule 11] else []) ++
  (if props.has_fixed_cost then [.extraCostModule] else [])

/-- Claim C9: with breaks, the pipeline contains the break module with
unassigned penalty -100; with reloads it contains a reload-capacity module
whose threshold takes 0.9 of the vehicle capacity (rounded to an i32 in the
single-dimension case, share of every dimension in the multi-dimension
case). -/
theorem pipeline_breaks_and_reload (props : ProblemProperties) (locks : List Nat)
    (limits : Bool) :
    (props.has_breaks = true →
      ConstraintModule.breakModule 4 (some (-100)) false ∈
        create_constraint_pipeline props locks limits) ∧
    (props.has_reload = true → props.has_multi_dimen_capacity = false →
      ∃ f, ConstraintModule.reloadCapacitySingle 2 100 f ∈
          create_constraint_pipeline props locks limits ∧
        ∀ c : Int, f c = rustRound ((c : ℚ) * (9 / 10))) ∧
    (props.has_reload = true → props.has_multi_dimen_capacity = true →
      ∃ f, ConstraintModule.reloadCapacityMulti 2 100 f ∈
          create_constraint_pipeline props locks limits ∧
        ∀ caps : List Int, f caps = caps.map (fun c => (c : ℚ) * (9 / 10))) := by
  refine ⟨?_, ?_, ?_⟩
  · intro h
    simp [create_constraint_pipeline, h]
  · intro h hm
    refine ⟨_, ?_, fun c => rfl⟩
    simp [create_constraint_pipeline, add_capacity_module, h, hm]
  · intro h hm
    refine ⟨_, ?_, fun caps => rfl⟩
    simp [create_constraint_pipeline, add_capacity_module, h, hm]

/-- Witness for claim C9 at a concrete property set with breaks and a
single-dimension reload. -/
theorem pipeline_breaks_and_reload_witness :
    ConstraintModule.breakModule 4 (some (-100)) false ∈
      create_constraint_pipeline ⟨false, true, false, false, false, true, none⟩ [] false ∧
    ∃ f, ConstraintModule.reloadCapacitySingle 2 100 f ∈
        create_constraint_pipeline ⟨false, true, false, false, false, true, none⟩ [] false ∧
      ∀ c : Int, f c = rustRound ((c : ℚ) * (9 / 10)) :=
  ⟨(pipeline_breaks_and_reload ⟨false, true, false, false, false, true, none⟩ [] false).1 rfl,
   (pipeline_breaks_and_reload ⟨false, true, false, false, false, true, none⟩ [] false).2.1
     rfl rfl⟩

theorem routeGroupsRelease_wIndividual : routeGroupsRelease wIndividual = some [[1, 0], [0, 1]] := by
  norm_num [routeGroupsRelease, groupsGoRelease, groupOf, routeGroupsDistancesWith,
    unsortedDistances, indexedMedoids, get_medoid, minByCmp, compare_floats,
    medoidPairDistance, sortByCmp, insertBy, wIndividual, wProblem, wTransport,
    routeDistanceCmp, List.enum, List.enumFrom]

/-- Claim C2 (code bug): the claim - and the spec step it renders - requires
every group member to be marked used, giving a partition; the code performs
the only insertion into used_indices inside the argument of debug_assert!,
which a release build compiles out. In release the used set stays empty and
grouping the concrete two-route individual yields the overlapping groups
[[1, 0], [0, 1]]: route index 0 appears in two groups, not exactly one. With
debug assertions on the insertion runs and the claimed partition invariant
does hold (theorems above), confirming the claim as the intent. -/
theorem grouping_release_overlaps :
    routeGroupsRelease wIndividual = some [[1, 0], [0, 1]] ∧
    ([[1, 0], [0, 1]] : List (List Nat)).countP (fun g => decide ((0 : Nat) ∈ g)) = 2 ∧
    ([[1, 0], [0, 1]] : List (List Nat)).countP (fun g => decide ((1 : Nat) ∈ g)) = 2 := by
  refine ⟨routeGroupsRelease_wIndividual, by decide, by decide⟩

/-- The release-build decomposition of the concrete two-route individual:
both overlapping groups become partitions, no carrier (nothing unassigned). -/
def rDecomposed : List RefinementContext :=
  (([[1, 0], [0, 1]].map (createPartialIndividual wIndividual)) ++
    createEmptyIndividuals wIndividual).map
    (fun i => RefinementContext.mk cCtx.problem [i] cCtx.quota)

theorem rDecomposed_some : decomposeIndividualRelease cCtx wIndividual = some rDecomposed := by
  simp only [decomposeIndividualRelease, createMultipleIndividualsRelease,
    routeGroupsRelease_wIndividual, Option.map_some', Option.some_bind]
  rw [if_pos (by decide)]
  rfl

/-- Claim C3 (code bug): the claim holds of the intent (debug build, theorems
above) but not of the release build: there the grouping never marks indices
used, the concrete two-route individual decomposes into two OVERLAPPING
partitions, and merging with repeat_count = 0 duplicates every route - four
merged routes against two source routes - so the merged routes are no
permutation of the source and the per-actor route composition differs. -/
theorem merge_release_duplicates_routes :
    decomposeIndividualRelease cCtx wIndividual = some rDecomposed ∧
    (refineDecomposed (fun _ i => i) 0 cCtx wIndividual.random
      rDecomposed).solution.routes.length = 4 ∧
    wIndividual.solution.routes.length = 2 ∧
    ¬ ((refineDecomposed (fun _ i => i) 0 cCtx wIndividual.random
        rDecomposed).solution.routes ~ wIndividual.solution.routes) := by
  have h4 : (refineDecomposed (fun _ i => i) 0 cCtx wIndividual.random
      rDecomposed).solution.routes.length = 4 := by decide
  refine ⟨rDecomposed_some, h4, rfl, ?_⟩
  intro hperm
  have hlen := hperm.length_eq
  rw [h4] at hlen
  cases hlen

end VRP
